import Mathlib

namespace Bitprim

/-- 2 to the power 256, the modulus of the 256 bit unsigned arithmetic in which
the store adapter accumulates work. -/
def TWO256 : Nat := 2 ^ 256

/-- A confirmed block record as the block database stores it: the block hash and
the compact difficulty bits of the header. Hashes are modelled as natural
numbers. -/
structure BlockRec where
  hash : Nat
  bits : Nat
deriving DecidableEq

/-- The persistent block store: the confirmed chain as a list of block records
indexed by height. -/
structure Store where
  chain : List BlockRec
deriving DecidableEq

/-- database blocks get by height. -/
def Store.getBlock (s : Store) (height : Nat) : Option BlockRec :=
  s.chain.get? height

/-- database blocks top: the height of the confirmed tip, when the chain is not
empty. -/
def Store.top (s : Store) : Option Nat :=
  if s.chain.isEmpty then none else some (s.chain.length - 1)

/-- Helper of Store.getHeight: scan the chain for a hash, carrying the height of
the head of the remaining list. -/
def Store.getHeightAux (h : Nat) : List BlockRec → Nat → Option Nat
  | [], _ => none
  | b :: rest, i => if b.hash = h then some i else Store.getHeightAux h rest (i + 1)

/-- block_chain get_height: resolve a block hash to its confirmed height. -/
def Store.getHeight (s : Store) (h : Nat) : Option Nat :=
  Store.getHeightAux h s.chain 0

/-- block_chain get_block_exists: whether a hash is in the confirmed chain. -/
def Store.blockExists (s : Store) (h : Nat) : Bool :=
  (s.getHeight h).isSome

/-- The loop of block_chain get_branch_work, from the newer block_chain.cpp.
The source loop runs while the height does not pass the top and the accumulated
work stays strictly below the maximum; here the bound height less or equal top
is embedded as structural recursion on the remaining count of heights, so the
first argument is top plus one minus the current height. Reading a missing
record fails the whole query. Additions wrap at 2 to the 256 because the source
accumulates in a 256 bit unsigned integer. The function pf maps header bits to
their proof of work. -/
def branchWorkLoop (pf : Nat → Nat) (s : Store) (maximum : Nat) :
    Nat → Nat → Nat → Option Nat
  | 0, _, acc => some acc
  | n + 1, height, acc =>
    if acc < maximum then
      match s.getBlock height with
      | none => none
      | some b => branchWorkLoop pf s maximum n (height + 1) ((acc + pf b.bits) % TWO256)
    else some acc

/-- block_chain get_branch_work: sum the proof of the header bits over the
confirmed heights from the given height to the top, stopping once the running
sum is no longer strictly below maximum; none models the false return when the
top or a block record cannot be read. -/
def get_branch_work (pf : Nat → Nat) (s : Store) (maximum lo : Nat) : Option Nat :=
  match s.top with
  | none => none
  | some t => branchWorkLoop pf s maximum (t + 1 - lo) lo 0

/-- The loop of the older block_chain get_fork_difficulty: the same summation
with no short circuit, again as structural recursion on the remaining count. -/
def forkDifficultyLoop (pf : Nat → Nat) (s : Store) :
    Nat → Nat → Nat → Option Nat
  | 0, _, acc => some acc
  | n + 1, height, acc =>
    match s.getBlock height with
    | none => none
    | some b => forkDifficultyLoop pf s n (height + 1) ((acc + pf b.bits) % TWO256)

/-- Older block_chain get_fork_difficulty: sum the proof of the header bits over
every confirmed height from the given height up to the top. -/
def get_fork_difficulty (pf : Nat → Nat) (s : Store) (lo : Nat) : Option Nat :=
  match s.top with
  | none => none
  | some t => forkDifficultyLoop pf s (t + 1 - lo) lo 0

/-- Modelled from the spec: the summation loop as the spec words it, short
circuiting only as soon as the running sum strictly exceeds the maximum, that
is, continuing while the running sum is less or equal the maximum. This
definition exists solely to compare the spec wording against the source. -/
def claimedBranchWorkLoop (pf : Nat → Nat) (s : Store) (maximum : Nat) :
    Nat → Nat → Nat → Option Nat
  | 0, _, acc => some acc
  | n + 1, height, acc =>
    if acc ≤ maximum then
      match s.getBlock height with
      | none => none
      | some b => claimedBranchWorkLoop pf s maximum n (height + 1) ((acc + pf b.bits) % TWO256)
    else some acc

/-- Modelled from the spec: get_branch_work under the spec wording of the short
circuit, stopping only once the running sum strictly exceeds the maximum. -/
def get_branch_work_claimed (pf : Nat → Nat) (s : Store) (maximum lo : Nat) : Option Nat :=
  match s.top with
  | none => none
  | some t => claimedBranchWorkLoop pf s maximum (t + 1 - lo) lo 0

/-- The work contributed by the record at one height, zero when missing. -/
def workAt (pf : Nat → Nat) (s : Store) (h : Nat) : Nat :=
  match s.getBlock h with
  | some b => pf b.bits
  | none => 0

/-- Mathematical sum of the work over n consecutive heights starting at lo,
with no wrapping and no short circuit. -/
def rangeWork (pf : Nat → Nat) (s : Store) : Nat → Nat → Nat
  | _, 0 => 0
  | lo, n + 1 => workAt pf s lo + rangeWork pf s (lo + 1) n

/-- Whether every one of n consecutive heights starting at lo holds a readable
record. -/
def allReadable (s : Store) : Nat → Nat → Bool
  | _, 0 => true
  | lo, n + 1 => (s.getBlock lo).isSome && allReadable s (lo + 1) n

/-- The number of heights the get_branch_work loop consumes when started at lo
with n heights left and an accumulator: the length of the shortest prefix whose
accumulated work reaches the maximum, capped at n. -/
def stopLen (pf : Nat → Nat) (s : Store) (maximum : Nat) : Nat → Nat → Nat → Nat
  | _, 0, _ => 0
  | lo, n + 1, acc =>
    if maximum ≤ acc then 0
    else stopLen pf s maximum (lo + 1) n (acc + workAt pf s lo) + 1

/-- The total confirmed work from a height up to the tip, zero when there is no
tip. -/
def chainWorkFrom (pf : Nat → Nat) (s : Store) (lo : Nat) : Nat :=
  match s.top with
  | none => 0
  | some t => rangeWork pf s lo (t + 1 - lo)

/-- Result codes surfaced by the organizer and the chain. The constructor
validate_error stands for the whole family of consensus subcodes the validator
phases may report. -/
inductive Code where
  | success
  | service_stopped
  | duplicate_block
  | orphan_block
  | insufficient_work
  | operation_failed
  | not_found
  | validate_error (n : Nat)
deriving DecidableEq

/-- A branch: the fork point hash and the candidate blocks ordered from the
block right after the fork point up to the branch top. -/
structure Branch where
  forkHash : Nat
  blocks : List BlockRec
deriving DecidableEq

/-- branch work: the accumulated proof of the branch blocks in 256 bit
arithmetic. -/
def Branch.work (pf : Nat → Nat) (br : Branch) : Nat :=
  br.blocks.foldl (fun acc b => (acc + pf b.bits) % TWO256) 0

/-- branch top: the hash of the newest branch block; zero for an empty branch,
which the organizer never reads because it rejects empty branches earlier. -/
def Branch.topHash (br : Branch) : Nat :=
  match br.blocks.getLast? with
  | some b => b.hash
  | none => 0

/-- Observable actions of the organizer: validator phases, pool mutations, the
store swap, subscriber notification and the stop events. -/
inductive Ev where
  | validator_check
  | validator_accept
  | validator_connect
  | pool_add (h : Nat)
  | pool_add_list (hs : List Nat)
  | pool_remove (hs : List Nat)
  | pool_prune (height : Nat)
  | store_reorganize (forkHeight : Nat) (incoming : List Nat)
  | notify_reorganize (height : Nat) (incoming outgoing : List Nat)
  | subscriber_invoke (c : Code)
  | validator_stop
  | subscriber_stop
deriving DecidableEq

/-- The outcome of one organize call: the code handed to the caller handler,
the trace of observable actions in order, and the resulting store. -/
structure OrgOutcome where
  ec : Code
  events : List Ev
  store : Store
deriving DecidableEq

/-- The hashes of a list of block records. -/
def hashesOf (bs : List BlockRec) : List Nat :=
  bs.map (fun b => b.hash)

/-- Modelled from the spec: the database reorganize, an atomic pop then push
swap whose sources are not part of this repository. Every block strictly above
the fork point is popped and returned top first, and the incoming blocks are
pushed in order starting at the height right after the fork point; the fork
point must match the confirmed record at its height. -/
def db_reorganize (s : Store) (forkHash forkHeight : Nat) (incoming : List BlockRec) :
    Option (List BlockRec × Store) :=
  match s.getBlock forkHeight with
  | some b =>
    if b.hash = forkHash then
      some ((s.chain.drop (forkHeight + 1)).reverse,
        ⟨s.chain.take (forkHeight + 1) ++ incoming⟩)
    else none
  | none => none

/-- block_chain reorganize: an empty incoming list fails with operation_failed
before the database swap runs; otherwise the swap runs and on success the
popped blocks are handed back alongside the updated store. -/
def block_chain_reorganize (s : Store) (forkHash forkHeight : Nat)
    (incoming : List BlockRec) : Code × List BlockRec × Store :=
  if incoming.isEmpty then (Code.operation_failed, [], s)
  else
    match db_reorganize s forkHash forkHeight incoming with
    | some (outgoing, s2) => (Code.success, outgoing, s2)
    | none => (Code.operation_failed, [], s)

/-- block_organizer handle_reorganized: a commit failure surfaces its code; on
success the branch blocks leave the pool, the pool is pruned at the new top
height, the popped blocks re enter the pool, and subscribers are notified with
the fork height, the incoming list and the outgoing list, in that order. -/
def handle_reorganized (branch : Branch) (forkHeight : Nat)
    (res : Code × List BlockRec × Store) (evs : List Ev) : OrgOutcome :=
  match res with
  | (ec, outgoing, s2) =>
    if ec = Code.success then
      ⟨Code.success,
        evs ++
          [Ev.pool_remove (hashesOf branch.blocks),
           Ev.pool_prune (forkHeight + branch.blocks.length),
           Ev.pool_add_list (hashesOf outgoing),
           Ev.notify_reorganize forkHeight (hashesOf branch.blocks) (hashesOf outgoing)],
        s2⟩
    else ⟨ec, evs, s2⟩

/-- block_organizer handle_connect: the stop flag observed after the connect
phase, then the connect code, then the branch work is compared against the
confirmed work from the height right after the fork point, read through
get_branch_work with the branch work as the maximum. -/
def handle_connect (pf : Nat → Nat) (s2flag : Bool) (connectEc : Code)
    (branch : Branch) (forkHeight : Nat) (store : Store) (evs : List Ev) : OrgOutcome :=
  if s2flag then ⟨Code.service_stopped, evs, store⟩
  else if connectEc ≠ Code.success then ⟨connectEc, evs, store⟩
  else
    match get_branch_work pf store (Branch.work pf branch) (forkHeight + 1) with
    | none => ⟨Code.operation_failed, evs, store⟩
    | some threshold =>
      if Branch.work pf branch ≤ threshold then
        ⟨Code.insufficient_work, evs ++ [Ev.pool_add branch.topHash], store⟩
      else
        handle_reorganized branch forkHeight
          (block_chain_reorganize store branch.forkHash forkHeight branch.blocks)
          (evs ++ [Ev.store_reorganize forkHeight (hashesOf branch.blocks)])

/-- block_organizer handle_accept: the stop flag observed after the accept
phase, then the accept code, then the connect phase runs. -/
def handle_accept (pf : Nat → Nat) (s1flag s2flag : Bool) (acceptEc connectEc : Code)
    (branch : Branch) (forkHeight : Nat) (store : Store) (evs : List Ev) : OrgOutcome :=
  if s1flag then ⟨Code.service_stopped, evs, store⟩
  else if acceptEc ≠ Code.success then ⟨acceptEc, evs, store⟩
  else handle_connect pf s2flag connectEc branch forkHeight store (evs ++ [Ev.validator_connect])

/-- block_organizer organize: the stopped flag, then the stateless check, then
the duplicate test on the walked branch and the candidate hash, then the fork
height resolution, then the accept and connect phases. The branch returned by
the pool path walk, the validator phase codes and the stopped flag readings at
the three observation points are inputs, because the pool internals, the
validator and the scheduling are outside this subsystem. -/
def organize (pf : Nat → Nat) (s0 s1flag s2flag : Bool)
    (checkEc acceptEc connectEc : Code) (branch : Branch) (blockHash : Nat)
    (store : Store) : OrgOutcome :=
  if s0 then ⟨Code.service_stopped, [], store⟩
  else if checkEc ≠ Code.success then ⟨checkEc, [Ev.validator_check], store⟩
  else if branch.blocks.isEmpty || store.blockExists blockHash then
    ⟨Code.duplicate_block, [Ev.validator_check], store⟩
  else
    match store.getHeight branch.forkHash with
    | none => ⟨Code.orphan_block, [Ev.validator_check], store⟩
    | some forkHeight =>
      handle_accept pf s1flag s2flag acceptEc connectEc branch forkHeight store
        [Ev.validator_check, Ev.validator_accept]

/-- The organizer state: only the stopped flag matters here. -/
structure OrganizerState where
  stopped : Bool
deriving DecidableEq

/-- block_organizer stop: stop the validator, stop the subscriber, deliver one
terminal service_stopped event, and set the stopped flag. -/
def block_organizer_stop (_st : OrganizerState) : OrganizerState × List Ev :=
  (⟨true⟩,
    [Ev.validator_stop, Ev.subscriber_stop, Ev.subscriber_invoke Code.service_stopped])

/-- Whether a trace holds a store reorganize invocation. -/
def hasReorgEv (evs : List Ev) : Bool :=
  evs.any (fun e =>
    match e with
    | Ev.store_reorganize _ _ => true
    | _ => false)

/-- One pass of a safe chain reader: whether the sequence handle indicated a
write lock when taken, whether the sequence is still valid at delivery time,
and the value the reads produce under this snapshot. -/
structure ReadAttempt (α : Type) where
  writeLocked : Bool
  readValid : Bool
  value : α

/-- block_chain finish_read: deliver the result only when the read sequence is
still valid, otherwise report failure so the surrounding loop retries. -/
def finish_read {α : Type} (a : ReadAttempt α) : Option α :=
  if a.readValid then some a.value else none

/-- block_chain read_serial: iterate over the successive snapshots the spinning
loop observes. A pass delivers only when the handle is not write locked and
finish_read confirms the sequence; otherwise the loop sleeps and retries on the
next snapshot. A spin that never delivers within the listed snapshots yields
none. -/
def read_serial {α : Type} : List (ReadAttempt α) → Option α
  | [] => none
  | a :: rest =>
    if a.writeLocked then read_serial rest
    else
      match finish_read a with
      | some v => some v
      | none => read_serial rest

/-- The shared locator scan start of both fetch_locator_block_hashes versions:
the height of the first locator start hash resolving in the confirmed chain,
else zero. -/
def locatorStart (s : Store) : List Nat → Nat
  | [] => 0
  | h :: rest =>
    match s.getHeight h with
    | some ht => ht
    | none => locatorStart s rest

/-- The null hash sentinel. -/
def null_hash : Nat := 0

/-- The shared locator stop of both versions: one past the last candidate
height, start plus limit plus one, lowered to the resolved stop hash height
when that hash is on the chain. -/
def locatorStop (s : Store) (start stopHash limit : Nat) : Nat :=
  let stop0 := start + 1 + limit
  if stopHash ≠ null_hash then
    match s.getHeight stopHash with
    | some ht => min ht stop0
    | none => stop0
  else stop0

/-- The hash collection loop of the older fetch_locator_block_hashes: scan the
heights below the stop, skip missing records, and return the first found hash
as a one element list, because the source loop body breaks right after its
first push. Structural recursion on the remaining count stop minus index. -/
def collectHashesV2 (s : Store) : Nat → Nat → List Nat
  | 0, _ => []
  | n + 1, index =>
    match s.getBlock index with
    | some b => [b.hash]
    | none => collectHashesV2 s n (index + 1)

/-- The hash collection loop of the newer fetch_locator_block_hashes:
accumulate the hashes of consecutive present heights, stopping at the first
missing record or at the stop. -/
def collectHashesV3 (s : Store) : Nat → Nat → List Nat
  | 0, _ => []
  | n + 1, index =>
    match s.getBlock index with
    | some b => b.hash :: collectHashesV3 s n (index + 1)
    | none => []

/-- Older block_chain fetch_locator_block_hashes, the fetched hash list of its
read body: the threshold hash raises the scan start when it resolves. -/
def fetch_locator_block_hashes_v2 (s : Store) (startHashes : List Nat)
    (stopHash thresholdHash limit : Nat) : List Nat :=
  let start0 := locatorStart s startHashes
  let stop := locatorStop s start0 stopHash limit
  let start :=
    if thresholdHash ≠ null_hash then
      match s.getHeight thresholdHash with
      | some ht => max ht start0
      | none => start0
    else start0
  collectHashesV2 s (stop - (start + 1)) (start + 1)

/-- Newer block_chain fetch_locator_block_hashes, the fetched hash list of its
read body: the scan begins right after the locator start. The source still
computes the threshold adjusted start, but the loop no longer reads it, which
the unused local mirrors. -/
def fetch_locator_block_hashes_v3 (s : Store) (startHashes : List Nat)
    (stopHash thresholdHash limit : Nat) : List Nat :=
  let start0 := locatorStart s startHashes
  let stop := locatorStop s start0 stopHash limit
  let _startAdjusted :=
    if thresholdHash ≠ null_hash then
      match s.getHeight thresholdHash with
      | some ht => max ht start0
      | none => start0
    else start0
  collectHashesV3 s (stop - (start0 + 1)) (start0 + 1)

/-- The scan helper never reports a height below its starting offset. -/
theorem getHeightAux_le (h : Nat) :
    ∀ (l : List BlockRec) (i j : Nat), Store.getHeightAux h l i = some j → i ≤ j := by
  intro l
  induction l with
  | nil => intro i j hj; simp [Store.getHeightAux] at hj
  | cons b rest ih =>
    intro i j hj
    rw [Store.getHeightAux] at hj
    by_cases hb : b.hash = h
    · simp [hb] at hj; omega
    · simp [hb] at hj
      have := ih (i + 1) j hj
      omega

/-- The scan helper reports a position holding a record with the sought hash. -/
theorem getHeightAux_get (h : Nat) :
    ∀ (l : List BlockRec) (i j : Nat), Store.getHeightAux h l i = some j →
      ∃ b, l.get? (j - i) = some b ∧ b.hash = h := by
  intro l
  induction l with
  | nil => intro i j hj; simp [Store.getHeightAux] at hj
  | cons b rest ih =>
    intro i j hj
    rw [Store.getHeightAux] at hj
    by_cases hb : b.hash = h
    · simp [hb] at hj
      refine ⟨b, ?_, hb⟩
      simp [hj]
    · simp [hb] at hj
      have hle := getHeightAux_le h rest (i + 1) j hj
      obtain ⟨c, hc, hch⟩ := ih (i + 1) j hj
      refine ⟨c, ?_, hch⟩
      have hji : j - i = (j - (i + 1)) + 1 := by omega
      rw [hji]
      simpa using hc

/-- A resolved height reads back a record carrying the resolved hash. -/
theorem Store.getHeight_getBlock (s : Store) (h j : Nat) :
    s.getHeight h = some j → ∃ b, s.getBlock j = some b ∧ b.hash = h := by
  intro hj
  have := getHeightAux_get h s.chain 0 j hj
  simpa [Store.getBlock] using this

/-- A successful list lookup is within the length. -/
theorem get?_lt_length {α : Type} :
    ∀ (l : List α) (n : Nat) (a : α), l.get? n = some a → n < l.length := by
  intro l
  induction l with
  | nil => intro n a h; simp at h
  | cons b rest ih =>
    intro n a h
    cases n with
    | zero => simp
    | succ m =>
      simp only [List.get?_cons_succ] at h
      have := ih m a h
      simp
      omega

/-- rangeWork is monotone in the number of heights. -/
theorem rangeWork_mono (pf : Nat → Nat) (s : Store) :
    ∀ (j : Nat) (lo n : Nat), j ≤ n → rangeWork pf s lo j ≤ rangeWork pf s lo n := by
  intro j
  induction j with
  | zero => intro lo n _; simp [rangeWork]
  | succ j ih =>
    intro lo n hj
    cases n with
    | zero => omega
    | succ m =>
      rw [rangeWork, rangeWork]
      have := ih (lo + 1) m (by omega)
      omega

/-- The consumed prefix never passes the available count. -/
theorem stopLen_le (pf : Nat → Nat) (s : Store) (maximum : Nat) :
    ∀ (n lo acc : Nat), stopLen pf s maximum lo n acc ≤ n := by
  intro n
  induction n with
  | zero => intro lo acc; simp [stopLen]
  | succ n ih =>
    intro lo acc
    rw [stopLen]
    by_cases hm : maximum ≤ acc
    · simp [hm]
    · simp [hm]
      have := ih (lo + 1) (acc + workAt pf s lo)
      omega

/-- Every proper prefix of the consumed prefix stays strictly below the
maximum. -/
theorem stopLen_lt_max (pf : Nat → Nat) (s : Store) (maximum : Nat) :
    ∀ (n lo acc j : Nat), j < stopLen pf s maximum lo n acc →
      acc + rangeWork pf s lo j < maximum := by
  intro n
  induction n with
  | zero => intro lo acc j hj; simp [stopLen] at hj
  | succ n ih =>
    intro lo acc j hj
    rw [stopLen] at hj
    by_cases hm : maximum ≤ acc
    · simp [hm] at hj
    · simp [hm] at hj
      cases j with
      | zero => simp [rangeWork]; omega
      | succ j2 =>
        have := ih (lo + 1) (acc + workAt pf s lo) j2 (by omega)
        rw [rangeWork]
        omega

/-- When the loop stops early, the consumed work has reached the maximum. -/
theorem stopLen_reached (pf : Nat → Nat) (s : Store) (maximum : Nat) :
    ∀ (n lo acc : Nat), stopLen pf s maximum lo n acc < n →
      maximum ≤ acc + rangeWork pf s lo (stopLen pf s maximum lo n acc) := by
  intro n
  induction n with
  | zero => intro lo acc h; omega
  | succ n ih =>
    intro lo acc h
    rw [stopLen] at h ⊢
    by_cases hm : maximum ≤ acc
    · simp [hm]; simp [rangeWork]; omega
    · simp [hm] at h ⊢
      have := ih (lo + 1) (acc + workAt pf s lo) (by omega)
      rw [rangeWork]
      omega

/-- The get_branch_work loop computes the accumulator plus the work of the
consumed prefix, provided every scanned height is readable and the true total
does not wrap the 256 bit arithmetic. -/
theorem branchWorkLoop_eq (pf : Nat → Nat) (s : Store) (maximum : Nat) :
    ∀ (n lo acc : Nat), allReadable s lo n = true →
      acc + rangeWork pf s lo n < TWO256 →
      branchWorkLoop pf s maximum n lo acc =
        some (acc + rangeWork pf s lo (stopLen pf s maximum lo n acc)) := by
  intro n
  induction n with
  | zero => intro lo acc _ _; simp [branchWorkLoop, stopLen, rangeWork]
  | succ n ih =>
    intro lo acc hr hov
    rw [allReadable] at hr
    simp only [Bool.and_eq_true] at hr
    obtain ⟨hr1, hr2⟩ := hr
    obtain ⟨b, hb⟩ := Option.isSome_iff_exists.mp hr1
    have hw : workAt pf s lo = pf b.bits := by simp [workAt, hb]
    rw [branchWorkLoop]
    by_cases hm : maximum ≤ acc
    · have : ¬ acc < maximum := by omega
      simp [this, stopLen, hm, rangeWork]
    · have hlt : acc < maximum := by omega
      simp only [if_pos hlt, hb]
      have hone : acc + pf b.bits < TWO256 := by
        rw [rangeWork, hw] at hov
        have := rangeWork_mono pf s 0 (lo + 1) n (by omega)
        simp [rangeWork] at this
        omega
      have hmod : (acc + pf b.bits) % TWO256 = acc + pf b.bits := Nat.mod_eq_of_lt hone
      rw [hmod]
      have hov2 : (acc + pf b.bits) + rangeWork pf s (lo + 1) n < TWO256 := by
        rw [rangeWork, hw] at hov
        omega
      rw [ih (lo + 1) (acc + pf b.bits) hr2 hov2]
      rw [stopLen]
      simp only [if_neg hm]
      rw [rangeWork, hw]
      congr 1
      omega

/-- The get_branch_work loop cannot fail over readable heights. -/
theorem branchWorkLoop_isSome (pf : Nat → Nat) (s : Store) (maximum : Nat) :
    ∀ (n lo acc : Nat), allReadable s lo n = true →
      (branchWorkLoop pf s maximum n lo acc).isSome = true := by
  intro n
  induction n with
  | zero => intro lo acc _; simp [branchWorkLoop]
  | succ n ih =>
    intro lo acc hr
    rw [allReadable] at hr
    simp only [Bool.and_eq_true] at hr
    obtain ⟨hr1, hr2⟩ := hr
    obtain ⟨b, hb⟩ := Option.isSome_iff_exists.mp hr1
    rw [branchWorkLoop]
    by_cases hlt : acc < maximum
    · simp only [if_pos hlt, hb]
      exact ih (lo + 1) _ hr2
    · simp [hlt]

/-- The older difficulty loop sums the whole readable range, provided the true
total does not wrap the 256 bit arithmetic. -/
theorem forkDifficultyLoop_eq (pf : Nat → Nat) (s : Store) :
    ∀ (n lo acc : Nat), allReadable s lo n = true →
      acc + rangeWork pf s lo n < TWO256 →
      forkDifficultyLoop pf s n lo acc = some (acc + rangeWork pf s lo n) := by
  intro n
  induction n with
  | zero => intro lo acc _ _; simp [forkDifficultyLoop, rangeWork]
  | succ n ih =>
    intro lo acc hr hov
    rw [allReadable] at hr
    simp only [Bool.and_eq_true] at hr
    obtain ⟨hr1, hr2⟩ := hr
    obtain ⟨b, hb⟩ := Option.isSome_iff_exists.mp hr1
    have hw : workAt pf s lo = pf b.bits := by simp [workAt, hb]
    rw [forkDifficultyLoop]
    simp only [hb]
    have hone : acc + pf b.bits < TWO256 := by
      rw [rangeWork, hw] at hov
      omega
    rw [Nat.mod_eq_of_lt hone]
    have hov2 : (acc + pf b.bits) + rangeWork pf s (lo + 1) n < TWO256 := by
      rw [rangeWork, hw] at hov
      omega
    rw [ih (lo + 1) (acc + pf b.bits) hr2 hov2]
    rw [rangeWork, hw]
    congr 1
    omega

/-- C3 (amended): over a chain whose top is readable and whose heights from
from_height to the top are all readable, get_branch_work succeeds; and when the
true range total fits 256 bits, it returns exactly the accumulated sum over the
shortest prefix whose running sum reaches or is equal to the maximum (the whole
range when no prefix reaches it): every proper prefix stays strictly below the
maximum, and an early stop happens only once the sum is at least the maximum.
Failure is therefore possible only when the top or a record in the scanned
range cannot be read. -/
theorem get_branch_work_stop_characterization (pf : Nat → Nat) (s : Store)
    (maximum lo t : Nat) (hs : s.top = some t)
    (hr : allReadable s lo (t + 1 - lo) = true) :
    (get_branch_work pf s maximum lo).isSome = true ∧
    (rangeWork pf s lo (t + 1 - lo) < TWO256 →
      (get_branch_work pf s maximum lo =
          some (rangeWork pf s lo (stopLen pf s maximum lo (t + 1 - lo) 0)) ∧
        stopLen pf s maximum lo (t + 1 - lo) 0 ≤ t + 1 - lo ∧
        (∀ j, j < stopLen pf s maximum lo (t + 1 - lo) 0 →
          rangeWork pf s lo j < maximum) ∧
        (stopLen pf s maximum lo (t + 1 - lo) 0 < t + 1 - lo →
          maximum ≤ rangeWork pf s lo (stopLen pf s maximum lo (t + 1 - lo) 0)))) := by
  constructor
  · simp only [get_branch_work, hs]
    exact branchWorkLoop_isSome pf s maximum (t + 1 - lo) lo 0 hr
  · intro hov
    refine ⟨?_, stopLen_le pf s maximum (t + 1 - lo) lo 0, ?_, ?_⟩
    · simp only [get_branch_work, hs]
      have := branchWorkLoop_eq pf s maximum (t + 1 - lo) lo 0 hr (by omega)
      simpa using this
    · intro j hj
      have := stopLen_lt_max pf s maximum (t + 1 - lo) lo 0 j hj
      omega
    · intro hlt
      have := stopLen_reached pf s maximum (t + 1 - lo) lo 0 hlt
      omega

/-- C3 witness: the characterization applied to a concrete three block chain
with maximum 8, where the loop consumes exactly two heights. -/
theorem get_branch_work_stop_characterization_witness :
    get_branch_work (fun b => b) ⟨[⟨100, 5⟩, ⟨101, 5⟩, ⟨102, 7⟩]⟩ 8 0 =
      some (rangeWork (fun b => b) ⟨[⟨100, 5⟩, ⟨101, 5⟩, ⟨102, 7⟩]⟩ 0
        (stopLen (fun b => b) ⟨[⟨100, 5⟩, ⟨101, 5⟩, ⟨102, 7⟩]⟩ 8 0 (2 + 1 - 0) 0)) := by
  exact ((get_branch_work_stop_characterization (fun b => b)
    ⟨[⟨100, 5⟩, ⟨101, 5⟩, ⟨102, 7⟩]⟩ 8 0 2 (by decide) (by decide)).2 (by decide)).1

/-- C3 counterexample: the source loop stops as soon as the running sum is at
least the maximum, while the spec wording stops only once the sum strictly
exceeds it. On a two block chain with per block work 5 and maximum 5 the source
returns 5 where the spec wording yields 10, so the claim as stated is false. -/
theorem get_branch_work_exceeds_wording_false :
    get_branch_work (fun b => b) ⟨[⟨100, 5⟩, ⟨101, 5⟩]⟩ 5 0 = some 5 ∧
    get_branch_work_claimed (fun b => b) ⟨[⟨100, 5⟩, ⟨101, 5⟩]⟩ 5 0 = some 10 ∧
    get_branch_work (fun b => b) ⟨[⟨100, 5⟩, ⟨101, 5⟩]⟩ 5 0 ≠
      get_branch_work_claimed (fun b => b) ⟨[⟨100, 5⟩, ⟨101, 5⟩]⟩ 5 0 := by
  refine ⟨by decide, by decide, by decide⟩

/-- C9: over a store whose heights from from_height to the tip are all readable
and whose true range total stays strictly below the maximum (and fits 256
bits), the newer get_branch_work never stops early and returns the same total
as the older get_fork_difficulty, which sums the range unconditionally. -/
theorem get_branch_work_refines_get_fork_difficulty (pf : Nat → Nat) (s : Store)
    (maximum lo t : Nat) (hs : s.top = some t)
    (hr : allReadable s lo (t + 1 - lo) = true)
    (hov : rangeWork pf s lo (t + 1 - lo) < TWO256)
    (hlt : rangeWork pf s lo (t + 1 - lo) < maximum) :
    get_branch_work pf s maximum lo = some (rangeWork pf s lo (t + 1 - lo)) ∧
    get_fork_difficulty pf s lo = some (rangeWork pf s lo (t + 1 - lo)) := by
  constructor
  · simp only [get_branch_work, hs]
    have heq := branchWorkLoop_eq pf s maximum (t + 1 - lo) lo 0 hr (by omega)
    have hstop : stopLen pf s maximum lo (t + 1 - lo) 0 = t + 1 - lo := by
      have h1 := stopLen_le pf s maximum (t + 1 - lo) lo 0
      by_contra hne
      have h2 : stopLen pf s maximum lo (t + 1 - lo) 0 < t + 1 - lo := by omega
      have h3 := stopLen_reached pf s maximum (t + 1 - lo) lo 0 h2
      have h4 := rangeWork_mono pf s (stopLen pf s maximum lo (t + 1 - lo) 0) lo
        (t + 1 - lo) (by omega)
      omega
    rw [hstop] at heq
    simpa using heq
  · simp only [get_fork_difficulty, hs]
    have := forkDifficultyLoop_eq pf s (t + 1 - lo) lo 0 hr (by omega)
    simpa using this

/-- C9 witness: both readers applied to a concrete two block chain with total
work 3 strictly below maximum 10. -/
theorem get_branch_work_refines_get_fork_difficulty_witness :
    get_branch_work (fun b => b) ⟨[⟨100, 1⟩, ⟨101, 2⟩]⟩ 10 0 = some 3 ∧
    get_fork_difficulty (fun b => b) ⟨[⟨100, 1⟩, ⟨101, 2⟩]⟩ 0 = some 3 := by
  have h := get_branch_work_refines_get_fork_difficulty (fun b => b)
    ⟨[⟨100, 1⟩, ⟨101, 2⟩]⟩ 10 0 1 (by decide) (by decide) (by decide) (by decide)
  constructor
  · rw [h.1]; decide
  · rw [h.2]; decide

/-- Lists of positive length are not empty. -/
theorem isEmpty_false_of_length_pos {α : Type} (l : List α) :
    0 < l.length → l.isEmpty = false := by
  cases l <;> simp

/-- The organizer reorg tail only ever reports success or operation_failed. -/
theorem handle_reorganized_ec (br : Branch) (fh : Nat) (s : Store) (fhash : Nat)
    (bs : List BlockRec) (evs : List Ev) :
    (handle_reorganized br fh (block_chain_reorganize s fhash fh bs) evs).ec = Code.success ∨
    (handle_reorganized br fh (block_chain_reorganize s fhash fh bs) evs).ec =
      Code.operation_failed := by
  unfold block_chain_reorganize
  by_cases hbs : bs.isEmpty
  · simp [hbs, handle_reorganized]
  · simp only [hbs, Bool.false_eq_true, if_false]
    rcases hdb : db_reorganize s fhash fh bs with _ | ⟨out, s2⟩ <;>
      simp [hdb, handle_reorganized]

/-- The connect stage never reports duplicate_block when the connect phase code
is not duplicate_block. -/
theorem handle_connect_ec_ne_dup (pf : Nat → Nat) (s2flag : Bool) (coE : Code)
    (br : Branch) (fh : Nat) (store : Store) (evs : List Ev)
    (hco : coE ≠ Code.duplicate_block) :
    (handle_connect pf s2flag coE br fh store evs).ec ≠ Code.duplicate_block := by
  unfold handle_connect
  cases s2flag
  · simp only [Bool.false_eq_true, if_false]
    by_cases hc : coE = Code.success
    · simp only [hc, ne_eq, not_true_eq_false, if_false]
      rcases hg : get_branch_work pf store (Branch.work pf br) (fh + 1) with _ | T
      · simp
      · simp only []
        by_cases hle : Branch.work pf br ≤ T
        · simp [hle]
        · simp only [hle, if_false]
          rcases handle_reorganized_ec br fh store br.forkHash br.blocks
            (evs ++ [Ev.store_reorganize fh (hashesOf br.blocks)]) with h | h <;>
            simp [h]
    · simp [hc, hco]
  · simp

/-- The accept stage never reports duplicate_block when neither later phase
code is duplicate_block. -/
theorem handle_accept_ec_ne_dup (pf : Nat → Nat) (s1flag s2flag : Bool)
    (aE coE : Code) (br : Branch) (fh : Nat) (store : Store) (evs : List Ev)
    (ha : aE ≠ Code.duplicate_block) (hco : coE ≠ Code.duplicate_block) :
    (handle_accept pf s1flag s2flag aE coE br fh store evs).ec ≠ Code.duplicate_block := by
  unfold handle_accept
  cases s1flag
  · simp only [Bool.false_eq_true, if_false]
    by_cases haE : aE = Code.success
    · simp only [haE, ne_eq, not_true_eq_false, if_false]
      exact handle_connect_ec_ne_dup pf s2flag coE br fh store _ hco
    · simp [haE, ha]
  · simp

/-- C1: when the walked branch resolves to fork height, the store from the
height after the fork is fully readable and its true total fits 256 bits, a
branch whose accumulated work is at most the confirmed work from that height
makes organize add only the branch top to the pool, return insufficient_work
and leave the store untouched with no reorganize invocation; conversely the
trace holds a reorganize invocation only when the branch work strictly exceeds
the confirmed work from the height after the fork. -/
theorem organize_insufficient_work_keeps_chain (pf : Nat → Nat) (branch : Branch)
    (blockHash : Nat) (store : Store) (t forkHeight : Nat)
    (hs : store.top = some t)
    (hr : allReadable store (forkHeight + 1) (t - forkHeight) = true)
    (hov : rangeWork pf store (forkHeight + 1) (t - forkHeight) < TWO256)
    (hfork : store.getHeight branch.forkHash = some forkHeight)
    (hne : branch.blocks.isEmpty = false)
    (hnex : store.blockExists blockHash = false) :
    (Branch.work pf branch ≤ chainWorkFrom pf store (forkHeight + 1) →
      organize pf false false false Code.success Code.success Code.success branch
          blockHash store =
        ⟨Code.insufficient_work,
          [Ev.validator_check, Ev.validator_accept, Ev.validator_connect,
           Ev.pool_add branch.topHash], store⟩) ∧
    (hasReorgEv (organize pf false false false Code.success Code.success Code.success
        branch blockHash store).events = true →
      chainWorkFrom pf store (forkHeight + 1) < Branch.work pf branch) := by
  have hT : get_branch_work pf store (Branch.work pf branch) (forkHeight + 1) =
      some (rangeWork pf store (forkHeight + 1)
        (stopLen pf store (Branch.work pf branch) (forkHeight + 1)
          (t - forkHeight) 0)) := by
    simp only [get_branch_work, hs]
    have := branchWorkLoop_eq pf store (Branch.work pf branch) (t - forkHeight)
      (forkHeight + 1) 0 hr (by omega)
    simpa using this
  have hSle := stopLen_le pf store (Branch.work pf branch) (t - forkHeight)
    (forkHeight + 1) 0
  have hiff : Branch.work pf branch ≤ rangeWork pf store (forkHeight + 1)
      (stopLen pf store (Branch.work pf branch) (forkHeight + 1)
        (t - forkHeight) 0) ↔
      Branch.work pf branch ≤ rangeWork pf store (forkHeight + 1)
        (t - forkHeight) := by
    constructor
    · intro h
      have := rangeWork_mono pf store
        (stopLen pf store (Branch.work pf branch) (forkHeight + 1)
          (t - forkHeight) 0) (forkHeight + 1) (t - forkHeight) hSle
      omega
    · intro h
      by_cases hS : stopLen pf store (Branch.work pf branch) (forkHeight + 1)
          (t - forkHeight) 0 < t - forkHeight
      · have := stopLen_reached pf store (Branch.work pf branch)
          (t - forkHeight) (forkHeight + 1) 0 hS
        omega
      · have hSeq : stopLen pf store (Branch.work pf branch) (forkHeight + 1)
            (t - forkHeight) 0 = t - forkHeight := by omega
        rw [hSeq]
        exact h
  have hcw : chainWorkFrom pf store (forkHeight + 1) =
      rangeWork pf store (forkHeight + 1) (t - forkHeight) := by
    simp [chainWorkFrom, hs]
  constructor
  · intro hle
    have hWT : Branch.work pf branch ≤ rangeWork pf store (forkHeight + 1)
        (stopLen pf store (Branch.work pf branch) (forkHeight + 1)
          (t - forkHeight) 0) := by
      rw [hcw] at hle
      exact hiff.mpr hle
    simp [organize, handle_accept, handle_connect, hne, hnex, hfork, hT, hWT]
  · intro hre
    rw [hcw]
    by_cases hWT : Branch.work pf branch ≤ rangeWork pf store (forkHeight + 1)
        (stopLen pf store (Branch.work pf branch) (forkHeight + 1)
          (t - forkHeight) 0)
    · exfalso
      have hout : organize pf false false false Code.success Code.success Code.success
          branch blockHash store =
          ⟨Code.insufficient_work,
            [Ev.validator_check, Ev.validator_accept, Ev.validator_connect,
             Ev.pool_add branch.topHash], store⟩ := by
        simp [organize, handle_accept, handle_connect, hne, hnex, hfork, hT, hWT]
      rw [hout] at hre
      simp [hasReorgEv] at hre
    · have : ¬ Branch.work pf branch ≤ rangeWork pf store (forkHeight + 1)
          (t - forkHeight) := fun hc => hWT (hiff.mpr hc)
      omega

/-- C1 witness: a one block branch of work 3 against a confirmed competitor of
work 5 from the fork height is pooled and reported as insufficient_work. -/
theorem organize_insufficient_work_keeps_chain_witness :
    organize (fun b => b) false false false Code.success Code.success Code.success
      ⟨100, [⟨200, 3⟩]⟩ 200 ⟨[⟨100, 1⟩, ⟨101, 5⟩]⟩ =
      ⟨Code.insufficient_work,
        [Ev.validator_check, Ev.validator_accept, Ev.validator_connect, Ev.pool_add 200],
        ⟨[⟨100, 1⟩, ⟨101, 5⟩]⟩⟩ := by
  rw [(organize_insufficient_work_keeps_chain (fun b => b) ⟨100, [⟨200, 3⟩]⟩ 200
    ⟨[⟨100, 1⟩, ⟨101, 5⟩]⟩ 1 0 (by decide) (by decide) (by decide) (by decide)
    (by decide) (by decide)).1 (by decide)]
  decide

/-- C2: a committed reorganization performs, in order, the store swap, the
removal of the branch blocks from the pool, the prune at the new top height,
the re admission of every popped block, the notification with the fork height
and both ordered lists, and returns success; the new confirmed chain is the
old chain up to the fork point followed by the branch blocks. -/
theorem organize_reorg_success_sequence (pf : Nat → Nat) (branch : Branch)
    (blockHash : Nat) (store : Store) (forkHeight T : Nat)
    (hfork : store.getHeight branch.forkHash = some forkHeight)
    (hne : branch.blocks.isEmpty = false)
    (hnex : store.blockExists blockHash = false)
    (hwk : get_branch_work pf store (Branch.work pf branch) (forkHeight + 1) = some T)
    (hlt : T < Branch.work pf branch) :
    organize pf false false false Code.success Code.success Code.success branch
        blockHash store =
      ⟨Code.success,
        [Ev.validator_check, Ev.validator_accept, Ev.validator_connect,
         Ev.store_reorganize forkHeight (hashesOf branch.blocks),
         Ev.pool_remove (hashesOf branch.blocks),
         Ev.pool_prune (forkHeight + branch.blocks.length),
         Ev.pool_add_list (hashesOf ((store.chain.drop (forkHeight + 1)).reverse)),
         Ev.notify_reorganize forkHeight (hashesOf branch.blocks)
           (hashesOf ((store.chain.drop (forkHeight + 1)).reverse))],
        ⟨store.chain.take (forkHeight + 1) ++ branch.blocks⟩⟩ := by
  obtain ⟨b, hb, hbh⟩ := Store.getHeight_getBlock store branch.forkHash forkHeight hfork
  have hWT : ¬ Branch.work pf branch ≤ T := by omega
  simp [organize, handle_accept, handle_connect, handle_reorganized,
    block_chain_reorganize, db_reorganize, hne, hnex, hfork, hwk, hWT, hb, hbh]

/-- C2 witness: a two block branch of work 7 displaces a competitor of work 5;
the trace shows the swap, the pool maintenance, the notification and success,
and the store now carries the branch. -/
theorem organize_reorg_success_sequence_witness :
    organize (fun b => b) false false false Code.success Code.success Code.success
      ⟨100, [⟨200, 3⟩, ⟨201, 4⟩]⟩ 201 ⟨[⟨100, 1⟩, ⟨101, 5⟩]⟩ =
      ⟨Code.success,
        [Ev.validator_check, Ev.validator_accept, Ev.validator_connect,
         Ev.store_reorganize 0 [200, 201], Ev.pool_remove [200, 201], Ev.pool_prune 2,
         Ev.pool_add_list [101], Ev.notify_reorganize 0 [200, 201] [101]],
        ⟨[⟨100, 1⟩, ⟨200, 3⟩, ⟨201, 4⟩]⟩⟩ := by
  rw [organize_reorg_success_sequence (fun b => b) ⟨100, [⟨200, 3⟩, ⟨201, 4⟩]⟩ 201
    ⟨[⟨100, 1⟩, ⟨101, 5⟩]⟩ 0 5 (by decide) (by decide) (by decide) (by decide) (by decide)]
  decide

/-- C4: given the call passes the stop gate and the stateless check, and the
accept and connect phase codes are not duplicate_block (they report consensus
subcodes), organize returns duplicate_block exactly when the walked branch is
empty or the candidate hash is already confirmed; in that case the trace shows
the stateless check only and the store is untouched. -/
theorem organize_duplicate_block_iff (pf : Nat → Nat) (s1flag s2flag : Bool)
    (acceptEc connectEc : Code) (branch : Branch) (blockHash : Nat) (store : Store)
    (ha : acceptEc ≠ Code.duplicate_block) (hc : connectEc ≠ Code.duplicate_block) :
    ((organize pf false s1flag s2flag Code.success acceptEc connectEc branch blockHash
        store).ec = Code.duplicate_block ↔
      (branch.blocks.isEmpty || store.blockExists blockHash) = true) ∧
    ((branch.blocks.isEmpty || store.blockExists blockHash) = true →
      organize pf false s1flag s2flag Code.success acceptEc connectEc branch blockHash
          store =
        ⟨Code.duplicate_block, [Ev.validator_check], store⟩) := by
  have hrev : (branch.blocks.isEmpty || store.blockExists blockHash) = true →
      organize pf false s1flag s2flag Code.success acceptEc connectEc branch blockHash
          store = ⟨Code.duplicate_block, [Ev.validator_check], store⟩ := by
    intro hdup
    simp [organize, hdup]
  refine ⟨⟨?_, fun hdup => by rw [hrev hdup]⟩, hrev⟩
  intro hec
  by_contra hdup
  rw [Bool.not_eq_true] at hdup
  rcases hh : store.getHeight branch.forkHash with _ | fh
  · simp [organize, hdup, hh] at hec
  · simp only [organize, Bool.false_eq_true, if_false, ne_eq, not_true_eq_false,
      hdup, hh] at hec
    exact handle_accept_ec_ne_dup pf s1flag s2flag acceptEc connectEc branch fh store
      [Ev.validator_check, Ev.validator_accept] ha hc hec

/-- C4 witness: an empty walked branch yields duplicate_block with only the
stateless check in the trace and the store unchanged. -/
theorem organize_duplicate_block_iff_witness :
    organize (fun b => b) false false false Code.success Code.success Code.success
      ⟨100, []⟩ 300 ⟨[⟨100, 1⟩]⟩ =
      ⟨Code.duplicate_block, [Ev.validator_check], ⟨[⟨100, 1⟩]⟩⟩ := by
  exact (organize_duplicate_block_iff (fun b => b) false false Code.success Code.success
    ⟨100, []⟩ 300 ⟨[⟨100, 1⟩]⟩ (by decide) (by decide)).2 (by decide)

/-- C5: a non empty branch whose fork point hash does not resolve to a
confirmed height makes organize return orphan_block with no pool action and
the store untouched. -/
theorem organize_orphan_pool_unchanged (pf : Nat → Nat) (s1flag s2flag : Bool)
    (acceptEc connectEc : Code) (branch : Branch) (blockHash : Nat) (store : Store)
    (hne : branch.blocks.isEmpty = false)
    (hnex : store.blockExists blockHash = false)
    (horph : store.getHeight branch.forkHash = none) :
    organize pf false s1flag s2flag Code.success acceptEc connectEc branch blockHash
        store =
      ⟨Code.orphan_block, [Ev.validator_check], store⟩ := by
  simp [organize, hne, hnex, horph]

/-- C5 witness: a branch hanging from an unknown fork hash is reported as an
orphan and nothing is pooled. -/
theorem organize_orphan_pool_unchanged_witness :
    organize (fun b => b) false false false Code.success Code.success Code.success
      ⟨999, [⟨200, 3⟩]⟩ 200 ⟨[⟨100, 1⟩]⟩ =
      ⟨Code.orphan_block, [Ev.validator_check], ⟨[⟨100, 1⟩]⟩⟩ := by
  exact organize_orphan_pool_unchanged (fun b => b) false false Code.success Code.success
    ⟨999, [⟨200, 3⟩]⟩ 200 ⟨[⟨100, 1⟩]⟩ (by decide) (by decide) (by decide)

/-- C6: stop delivers exactly one terminal service_stopped subscriber event and
raises the stopped flag; an organize entered after stop returns service_stopped
with an empty trace and an untouched store; and an in flight organize that
observes the raised flag at the post accept or post connect reentry point also
returns service_stopped. -/
theorem organize_stop_semantics (st : OrganizerState) (pf : Nat → Nat)
    (s1flag s2flag : Bool) (checkEc acceptEc connectEc : Code) (branch : Branch)
    (blockHash : Nat) (store : Store) (forkHeight : Nat) :
    ((block_organizer_stop st).2.count (Ev.subscriber_invoke Code.service_stopped) = 1) ∧
    ((block_organizer_stop st).1.stopped = true) ∧
    (organize pf (block_organizer_stop st).1.stopped s1flag s2flag checkEc acceptEc
        connectEc branch blockHash store = ⟨Code.service_stopped, [], store⟩) ∧
    (s1flag = true → checkEc = Code.success → branch.blocks.isEmpty = false →
      store.blockExists blockHash = false →
      store.getHeight branch.forkHash = some forkHeight →
      (organize pf false s1flag s2flag checkEc acceptEc connectEc branch blockHash
        store).ec = Code.service_stopped) ∧
    (s2flag = true → s1flag = false → checkEc = Code.success →
      acceptEc = Code.success → branch.blocks.isEmpty = false →
      store.blockExists blockHash = false →
      store.getHeight branch.forkHash = some forkHeight →
      (organize pf false s1flag s2flag checkEc acceptEc connectEc branch blockHash
        store).ec = Code.service_stopped) := by
  refine ⟨by rfl, by rfl, by simp [block_organizer_stop, organize], ?_, ?_⟩
  · intro h1 h2 h3 h4 h5
    subst h1
    subst h2
    simp [organize, handle_accept, h3, h4, h5]
  · intro h1 h2 h3 h4 h5 h6 h7
    subst h1
    subst h2
    subst h3
    subst h4
    simp [organize, handle_accept, handle_connect, h5, h6, h7]

/-- C6 witness: with the flag raised at entry the call returns service_stopped
untouched, and an in flight call observing the flag after accept returns
service_stopped as well. -/
theorem organize_stop_semantics_witness :
    (organize (fun b => b) true false false Code.success Code.success Code.success
        ⟨100, [⟨200, 3⟩]⟩ 200 ⟨[⟨100, 1⟩]⟩ =
      ⟨Code.service_stopped, [], ⟨[⟨100, 1⟩]⟩⟩) ∧
    ((organize (fun b => b) false true false Code.success Code.success Code.success
        ⟨100, [⟨200, 3⟩]⟩ 200 ⟨[⟨100, 1⟩]⟩).ec = Code.service_stopped) := by
  have h := organize_stop_semantics ⟨false⟩ (fun b => b) true false Code.success
    Code.success Code.success ⟨100, [⟨200, 3⟩]⟩ 200 ⟨[⟨100, 1⟩]⟩ 0
  exact ⟨h.2.2.1, h.2.2.2.1 rfl rfl (by decide) (by decide) (by decide)⟩

/-- A successful database swap requires the fork height on chain and yields the
chain truncated right after the fork point followed by the incoming blocks. -/
theorem db_reorganize_some (s : Store) (forkHash forkHeight : Nat)
    (incoming out : List BlockRec) (s2 : Store)
    (h : db_reorganize s forkHash forkHeight incoming = some (out, s2)) :
    forkHeight < s.chain.length ∧
    s2 = ⟨s.chain.take (forkHeight + 1) ++ incoming⟩ := by
  unfold db_reorganize at h
  rcases hgb : s.getBlock forkHeight with _ | b
  · rw [hgb] at h
    simp at h
  · rw [hgb] at h
    have hfl : forkHeight < s.chain.length := by
      have hb2 : s.chain.get? forkHeight = some b := by
        simpa [Store.getBlock] using hgb
      exact get?_lt_length s.chain forkHeight b hb2
    by_cases hbh : b.hash = forkHash
    · simp only [hbh, if_true, Option.some.injEq, Prod.mk.injEq] at h
      exact ⟨hfl, h.2.symm⟩
    · simp [hbh] at h

/-- C7: a reorganize with an empty incoming list fails with operation_failed
and an untouched store, so a committed reorganization has at least one incoming
block and its new tip height is the fork height plus the incoming length. -/
theorem block_chain_reorganize_empty_and_new_tip (s : Store)
    (forkHash forkHeight : Nat) (incoming : List BlockRec) :
    (block_chain_reorganize s forkHash forkHeight [] =
      (Code.operation_failed, [], s)) ∧
    ((block_chain_reorganize s forkHash forkHeight incoming).1 = Code.success →
      incoming ≠ [] ∧
      (block_chain_reorganize s forkHash forkHeight incoming).2.2.top =
        some (forkHeight + incoming.length)) := by
  constructor
  · simp [block_chain_reorganize]
  · cases incoming with
    | nil =>
      intro hsucc
      simp [block_chain_reorganize] at hsucc
    | cons a as =>
      rw [block_chain_reorganize]
      simp only [List.isEmpty_cons, Bool.false_eq_true, if_false]
      rcases hdb : db_reorganize s forkHash forkHeight (a :: as) with _ | ⟨out, s2⟩
      · intro hsucc
        simp at hsucc
      · intro _
        refine ⟨by simp, ?_⟩
        show s2.top = some (forkHeight + (a :: as).length)
        obtain ⟨hfl, hs2⟩ := db_reorganize_some s forkHash forkHeight (a :: as) out s2 hdb
        have hlen : s2.chain.length = forkHeight + 1 + (as.length + 1) := by
          rw [hs2]
          simp [List.length_take]
          omega
        have hemp : s2.chain.isEmpty = false :=
          isEmpty_false_of_length_pos s2.chain (by omega)
        rw [Store.top, hemp]
        simp only [Bool.false_eq_true, if_false, Option.some.injEq]
        rw [hlen]
        simp
        omega

/-- C7 witness: the empty swap fails leaving the store alone, and a committed
one block swap above fork height zero raises the tip to height one. -/
theorem block_chain_reorganize_empty_and_new_tip_witness :
    (block_chain_reorganize ⟨[⟨100, 1⟩]⟩ 100 0 [] =
      (Code.operation_failed, [], ⟨[⟨100, 1⟩]⟩)) ∧
    (block_chain_reorganize ⟨[⟨100, 1⟩]⟩ 100 0 [⟨200, 1⟩]).2.2.top = some 1 := by
  refine ⟨(block_chain_reorganize_empty_and_new_tip ⟨[⟨100, 1⟩]⟩ 100 0 [⟨200, 1⟩]).1, ?_⟩
  have h := (block_chain_reorganize_empty_and_new_tip ⟨[⟨100, 1⟩]⟩ 100 0
    [⟨200, 1⟩]).2 (by decide)
  simpa using h.2

/-- C8: a serial read delivers exactly the value produced by the first observed
snapshot that was neither write locked at acquisition nor invalidated at
delivery, and delivers nothing from any other snapshot; so a caller never
observes a result whose read sequence a concurrent write invalidated. -/
theorem read_serial_delivers_first_valid {α : Type} (attempts : List (ReadAttempt α)) :
    read_serial attempts =
      ((attempts.filter (fun a => !a.writeLocked && a.readValid)).head?).map
        (fun a => a.value) := by
  induction attempts with
  | nil => simp [read_serial]
  | cons a rest ih =>
    rw [read_serial]
    cases hw : a.writeLocked
    · cases hv : a.readValid
      · simp [finish_read, hv, List.filter_cons, hw, ih]
      · simp [finish_read, hv, List.filter_cons, hw]
    · simp [List.filter_cons, hw, ih]

/-- The older collection loop yields nothing over a fully missing range. -/
theorem collectHashesV2_nil (s : Store) :
    ∀ (n index : Nat), (∀ k, index ≤ k → k < index + n → s.getBlock k = none) →
      collectHashesV2 s n index = [] := by
  intro n
  induction n with
  | zero => intro index _; simp [collectHashesV2]
  | succ n ih =>
    intro index hnone
    rw [collectHashesV2]
    have h0 : s.getBlock index = none := hnone index (le_refl index) (by omega)
    rw [h0]
    exact ih (index + 1) (fun k hk1 hk2 => hnone k (by omega) (by omega))

/-- C10 (amended): with a null threshold hash the two fetch_locator_block_hashes
bodies agree whenever no block is present at any height strictly between the
height right after the locator start and the stop height; both then deliver
the single hash at that first height when it is present and the empty list
otherwise. In general the older version delivers at most the first hash found
in the range while the newer one accumulates consecutive hashes, and the newer
one ignores the threshold based start adjustment. -/
theorem fetch_locator_block_hashes_agree_sparse (s : Store) (startHashes : List Nat)
    (stopHash limit : Nat)
    (hsparse : ∀ k, locatorStart s startHashes + 2 ≤ k →
      k < locatorStop s (locatorStart s startHashes) stopHash limit →
      s.getBlock k = none) :
    fetch_locator_block_hashes_v2 s startHashes stopHash null_hash limit =
      fetch_locator_block_hashes_v3 s startHashes stopHash null_hash limit := by
  unfold fetch_locator_block_hashes_v2 fetch_locator_block_hashes_v3
  simp only [ne_eq, not_true_eq_false, if_false]
  rcases hn : locatorStop s (locatorStart s startHashes) stopHash limit -
      (locatorStart s startHashes + 1) with _ | n
  · simp [collectHashesV2, collectHashesV3]
  · rw [collectHashesV2, collectHashesV3]
    rcases hb : s.getBlock (locatorStart s startHashes + 1) with _ | b
    · rw [collectHashesV2_nil s n (locatorStart s startHashes + 2) ?_]
      intro k hk1 hk2
      exact hsparse k hk1 (by omega)
    · rcases n with _ | m
      · simp [collectHashesV3]
      · rw [collectHashesV3]
        rw [hsparse (locatorStart s startHashes + 2) (le_refl _) (by omega)]

/-- C10 witness: over a two block chain with a null threshold, an empty locator
and limit five, no height above the first candidate holds a block and both
versions deliver the same single hash. -/
theorem fetch_locator_block_hashes_agree_sparse_witness :
    fetch_locator_block_hashes_v2 ⟨[⟨10, 1⟩, ⟨11, 1⟩]⟩ [] 0 null_hash 5 =
      fetch_locator_block_hashes_v3 ⟨[⟨10, 1⟩, ⟨11, 1⟩]⟩ [] 0 null_hash 5 := by
  apply fetch_locator_block_hashes_agree_sparse
  intro k h1 h2
  have e1 : locatorStart (⟨[⟨10, 1⟩, ⟨11, 1⟩]⟩ : Store) [] = 0 := by decide
  rw [e1] at h1 h2
  have e2 : locatorStop (⟨[⟨10, 1⟩, ⟨11, 1⟩]⟩ : Store) 0 0 5 = 6 := by decide
  rw [e2] at h2
  interval_cases k <;> decide

/-- C10 counterexample: on a three block chain with an empty locator, null stop
and threshold hashes and limit 500, the older body delivers only the first hash
while the newer delivers two, so the claimed agreement for every store and
locator is false. -/
theorem fetch_locator_block_hashes_versions_differ :
    fetch_locator_block_hashes_v2 ⟨[⟨10, 1⟩, ⟨11, 1⟩, ⟨12, 1⟩]⟩ [] 0 0 500 = [11] ∧
    fetch_locator_block_hashes_v3 ⟨[⟨10, 1⟩, ⟨11, 1⟩, ⟨12, 1⟩]⟩ [] 0 0 500 = [11, 12] ∧
    fetch_locator_block_hashes_v2 ⟨[⟨10, 1⟩, ⟨11, 1⟩, ⟨12, 1⟩]⟩ [] 0 0 500 ≠
      fetch_locator_block_hashes_v3 ⟨[⟨10, 1⟩, ⟨11, 1⟩, ⟨12, 1⟩]⟩ [] 0 0 500 := by
  refine ⟨by decide, by decide, by decide⟩

end Bitprim
